import Mathlib

/-!
Verification of the `IntervalMap` container from `src/interval_map/mod.rs`.

The Rust struct `IntervalMap<K, V>` holds a `default_value : V` and a
`value_map : BTreeMap<K, V>`.  We embed the `BTreeMap` as an association
list with strictly increasing keys (the order in which a `BTreeMap`
iterates), and translate each Rust method into a Lean function of the
same name.  Machine integers play no role: the Rust code is generic over
`K : Ord` and `V : Eq`, which we render as `LinearOrder K` and
`DecidableEq V`.
-/

namespace IntervalMapSpec

variable {K V : Type} [LinearOrder K] [DecidableEq V]

/-- The container: `default_value` plus the breakpoint store `value_map`
(`BTreeMap<K, V>` embedded as a key-sorted association list). -/
structure IntervalMap (K V : Type) where
  default_value : V
  value_map : List (K × V)
  deriving DecidableEq

/-- `BTreeMap::insert` on a key-sorted association list: overwrite the
entry at `k` if present, otherwise insert `(k, v)` at its sorted position. -/
def mapInsert (k : K) (v : V) : List (K × V) → List (K × V)
  | [] => [(k, v)]
  | (k', v') :: rest =>
    if k < k' then (k, v) :: (k', v') :: rest
    else if k = k' then (k, v) :: rest
    else (k', v') :: mapInsert k v rest

/-- `BTreeMap::remove_entry`: drop the entry whose key is `k`, if any. -/
def mapRemove (k : K) : List (K × V) → List (K × V)
  | [] => []
  | (k', v') :: rest => if k = k' then rest else (k', v') :: mapRemove k rest

/-- `BTreeMap::get`. -/
def mapGet? (k : K) : List (K × V) → Option V
  | [] => none
  | (k', v') :: rest => if k = k' then some v' else mapGet? k rest

/-- `BTreeMap::keys` (in iteration order). -/
def keysOf (m : List (K × V)) : List K := m.map Prod.fst

/-- `BTreeMap::contains_key`. -/
def containsKey (k : K) (m : List (K × V)) : Bool := (mapGet? k m).isSome

/-- `IntervalMap::new(default)`. -/
def IntervalMap.new (default : V) : IntervalMap K V := ⟨default, []⟩

/-- `IntervalMap::min_key`: `self.value_map.keys().min()`. -/
def min_key (st : IntervalMap K V) : Option K := (keysOf st.value_map).min?

/-- `IntervalMap::max_key`: `self.value_map.keys().max()`. -/
def max_key (st : IntervalMap K V) : Option K := (keysOf st.value_map).max?

/-- `IntervalMap::next_key`: smallest stored key strictly greater than `key`. -/
def next_key (st : IntervalMap K V) (key : K) : Option K :=
  ((keysOf st.value_map).filter (fun k => decide (key < k))).min?

/-- `IntervalMap::previous_key`: greatest stored key strictly less than `key`. -/
def previous_key (st : IntervalMap K V) (key : K) : Option K :=
  ((keysOf st.value_map).filter (fun k => decide (k < key))).max?

/-- `IntervalMap::key_exceeds`: the next stored key after `key` is strictly
greater than `threshold`, or there is no next key at all. -/
def key_exceeds (st : IntervalMap K V) (key threshold : K) : Bool :=
  match next_key st key with
  | some k => decide (threshold < k)
  | none => true

/-- `IntervalMap::keys_in_range`: all stored keys `k` with
`start <= k < kend`, in ascending order. -/
def keys_in_range (st : IntervalMap K V) (start kend : K) : List K :=
  (keysOf st.value_map).filter (fun key => decide (start ≤ key) && decide (key < kend))

/-- `IntervalMap::previous_value`, with the `.unwrap()` made explicit:
`none` is the panic of `self.value_map.get(&k).unwrap()` when
`previous_key` returned a key that is not in the store. -/
def previous_value? (st : IntervalMap K V) (key : K) : Option V :=
  match previous_key st key with
  | some k => mapGet? k st.value_map
  | none => some st.default_value

/-- `IntervalMap::previous_value` as the total function the Rust code
behaves as (the unwrap never fires; see `index_total`). -/
def previous_value (st : IntervalMap K V) (key : K) : V :=
  (previous_value? st key).getD st.default_value

/-- `IntervalMap::next_value` (defined in the source; unused by `assign`). -/
def next_value (st : IntervalMap K V) (key : K) : Option V :=
  match next_key st key with
  | some k => mapGet? k st.value_map
  | none => some st.default_value

/-- `Index::index` (`self[key]`), with the possible unwrap panic of
`previous_value` surfaced as `none`. -/
def index? (st : IntervalMap K V) (key : K) : Option V :=
  match min_key st with
  | none => some st.default_value
  | some mk =>
    if key < mk then some st.default_value
    else
      match mapGet? key st.value_map with
      | some val => some val
      | none => previous_value? st key

/-- `Index::index` (`self[key]`) as the total function the Rust code
behaves as. -/
def index (st : IntervalMap K V) (key : K) : V :=
  (index? st key).getD st.default_value

/-- Remove every key of `ks` from `m`:
`overlapped.iter().for_each(|elem| { self.value_map.remove_entry(elem); })`. -/
def removeAll (ks : List K) (m : List (K × V)) : List (K × V) :=
  ks.foldl (fun acc k => mapRemove k acc) m

/-- The `if !overlapped.is_empty() { ... }` block of `assign`: returns the
`end_set` flag and the store after the optional insert at `key_end` and the
removal of every overlapped key.  `overlapped.last()` is the greatest
overlapped key because a `BTreeMap` iterates in ascending key order. -/
def assignScan (st : IntervalMap K V) (key_end : K) (overlapped : List K) :
    Bool × List (K × V) :=
  match overlapped.getLast? with
  | none => (false, st.value_map)
  | some last_overlap =>
    if containsKey key_end st.value_map = false ∧
        key_exceeds st last_overlap key_end = true then
      (true, removeAll overlapped (mapInsert key_end (index st last_overlap) st.value_map))
    else
      (false, removeAll overlapped st.value_map)

/-- `IntervalMap::assign(key_begin, key_end, value)`: the returned `Bool`
is the Rust return value, the returned map is the mutated `self`. -/
def assign (st : IntervalMap K V) (key_begin key_end : K) (value : V) :
    Bool × IntervalMap K V :=
  if key_end ≤ key_begin then (false, st)
  else if st.value_map = [] ∧ ¬ value = st.default_value then
    (true, ⟨st.default_value,
      mapInsert key_end st.default_value (mapInsert key_begin value st.value_map)⟩)
  else if value = previous_value st key_begin ∨ value = index st key_end then
    (false, st)
  else
    let p := assignScan st key_end (keys_in_range st key_begin key_end)
    let m2 := mapInsert key_begin value p.2
    (true, ⟨st.default_value,
      if p.1 = false ∧ containsKey key_end m2 = false then
        mapInsert key_end st.default_value m2
      else m2⟩)

/-- Container states reachable from `new` by `assign` calls. -/
inductive Reachable : IntervalMap K V → Prop where
  | base : ∀ d : V, Reachable (IntervalMap.new d)
  | step : ∀ (st : IntervalMap K V) (kb ke : K) (v : V),
      Reachable st → Reachable (assign st kb ke v).2

/-- The store's keys are strictly increasing (the `BTreeMap` representation
invariant of the embedding). -/
def SortedKeys (m : List (K × V)) : Prop :=
  List.Pairwise (fun p q : K × V => p.1 < q.1) m

/-! ### Helper lemmas about the association-list primitives -/

set_option linter.unusedSectionVars false
set_option linter.unusedVariables false

instance : Std.Antisymm ((· : K) ≤ ·) := ⟨fun h1 h2 => le_antisymm h1 h2⟩

theorem max?_spec {l : List K} {a : K} (h : l.max? = some a) :
    a ∈ l ∧ ∀ b ∈ l, b ≤ a :=
  ⟨List.max?_mem (fun a b => max_choice a b) h,
   fun b hb => (List.max?_le_iff (fun _ _ _ => max_le_iff) h).1 le_rfl b hb⟩

theorem max?_eq_some_of {l : List K} {a : K} (h1 : a ∈ l) (h2 : ∀ b ∈ l, b ≤ a) :
    l.max? = some a :=
  (List.max?_eq_some_iff (fun a => le_refl a) (fun a b => max_choice a b)
    (fun _ _ _ => max_le_iff)).2 ⟨h1, h2⟩

theorem min?_spec {l : List K} {a : K} (h : l.min? = some a) :
    a ∈ l ∧ ∀ b ∈ l, a ≤ b :=
  ⟨List.min?_mem (fun a b => min_choice a b) h,
   fun b hb => (List.le_min?_iff (fun _ _ _ => le_min_iff) h).1 le_rfl b hb⟩

theorem min?_eq_some_of {l : List K} {a : K} (h1 : a ∈ l) (h2 : ∀ b ∈ l, a ≤ b) :
    l.min? = some a :=
  (List.min?_eq_some_iff (fun a => le_refl a) (fun a b => min_choice a b)
    (fun _ _ _ => le_min_iff)).2 ⟨h1, h2⟩

theorem mem_of_getLast?_eq {l : List K} {a : K} (h : l.getLast? = some a) : a ∈ l := by
  induction l with
  | nil => simp at h
  | cons x t ih =>
    cases t with
    | nil => simp_all
    | cons y t' =>
      rw [List.getLast?_cons_cons] at h
      exact List.mem_cons_of_mem _ (ih h)

theorem le_getLast?_of_sorted {l : List K} {a : K} (hs : List.Pairwise (· < ·) l)
    (h : l.getLast? = some a) : ∀ b ∈ l, b ≤ a := by
  induction l with
  | nil => simp at h
  | cons x t ih =>
    intro b hb
    cases t with
    | nil =>
      simp at h hb
      simp [hb, h]
    | cons y t' =>
      rw [List.getLast?_cons_cons] at h
      rcases List.mem_cons.1 hb with hb | hb
      · subst hb
        exact le_of_lt ((List.pairwise_cons.1 hs).1 a (mem_of_getLast?_eq h))
      · exact ih (List.pairwise_cons.1 hs).2 h b hb

theorem mem_keysOf_of_mapGet? {m : List (K × V)} {k : K} {v : V}
    (h : mapGet? k m = some v) : k ∈ keysOf m := by
  induction m with
  | nil => simp [mapGet?] at h
  | cons p t ih =>
    obtain ⟨k', v'⟩ := p
    rw [mapGet?] at h
    by_cases hk : k = k'
    · simp [keysOf, hk]
    · rw [if_neg hk] at h
      simpa [keysOf] using Or.inr (by simpa [keysOf] using ih h)

theorem mapGet?_isSome_of_mem {m : List (K × V)} {k : K}
    (h : k ∈ keysOf m) : (mapGet? k m).isSome := by
  induction m with
  | nil => simp [keysOf] at h
  | cons p t ih =>
    obtain ⟨k', v'⟩ := p
    rw [mapGet?]
    by_cases hk : k = k'
    · simp [hk]
    · rw [if_neg hk]
      exact ih (by simpa [keysOf, hk] using h)

theorem mapGet?_eq_none_of_not_mem {m : List (K × V)} {k : K}
    (h : k ∉ keysOf m) : mapGet? k m = none := by
  cases hg : mapGet? k m with
  | none => rfl
  | some v => exact absurd (mem_keysOf_of_mapGet? hg) h

theorem not_mem_keysOf_of_mapGet?_eq_none {m : List (K × V)} {k : K}
    (h : mapGet? k m = none) : k ∉ keysOf m := by
  intro hk
  have := mapGet?_isSome_of_mem (m := m) hk
  rw [h] at this
  simp at this

theorem mapGet?_mapInsert (a k : K) (v : V) (m : List (K × V)) :
    mapGet? a (mapInsert k v m) = if a = k then some v else mapGet? a m := by
  induction m with
  | nil =>
    by_cases hk : a = k <;> simp [mapInsert, mapGet?, hk]
  | cons p t ih =>
    obtain ⟨k', v'⟩ := p
    by_cases h1 : k < k'
    · simp only [mapInsert, if_pos h1, mapGet?]
    · by_cases h2 : k = k'
      · subst h2
        by_cases hak : a = k <;> simp [mapInsert, h1, mapGet?, hak]
      · by_cases hak' : a = k'
        · have hnak : ¬ a = k := fun hh => h2 (hh ▸ hak')
          have hk'k : ¬ k' = k := fun hh => h2 hh.symm
          simp [mapInsert, h1, h2, mapGet?, hak', hnak, hk'k]
        · simp [mapInsert, h1, h2, mapGet?, hak', ih]

theorem mem_keysOf_mapInsert {a k : K} {v : V} {m : List (K × V)} :
    a ∈ keysOf (mapInsert k v m) ↔ a = k ∨ a ∈ keysOf m := by
  constructor
  · intro h
    by_cases hak : a = k
    · exact Or.inl hak
    · refine Or.inr ?_
      have := mapGet?_isSome_of_mem h
      rw [mapGet?_mapInsert, if_neg hak] at this
      rcases hg : mapGet? a m with _ | w
      · rw [hg] at this; simp at this
      · exact mem_keysOf_of_mapGet? hg
  · intro h
    rcases h with h | h
    · subst h
      apply mem_keysOf_of_mapGet? (v := v)
      rw [mapGet?_mapInsert, if_pos rfl]
    · by_cases hak : a = k
      · subst hak
        apply mem_keysOf_of_mapGet? (v := v)
        rw [mapGet?_mapInsert, if_pos rfl]
      · have := mapGet?_isSome_of_mem h
        rcases hg : mapGet? a m with _ | w
        · rw [hg] at this; simp at this
        · apply mem_keysOf_of_mapGet? (v := w)
          rw [mapGet?_mapInsert, if_neg hak]
          exact hg

theorem sortedKeys_mapInsert {k : K} {v : V} {m : List (K × V)}
    (hs : SortedKeys m) : SortedKeys (mapInsert k v m) := by
  induction m with
  | nil => simp [mapInsert, SortedKeys]
  | cons p t ih =>
    obtain ⟨k', v'⟩ := p
    rw [SortedKeys, List.pairwise_cons] at hs
    rw [mapInsert]
    by_cases h1 : k < k'
    · rw [if_pos h1, SortedKeys, List.pairwise_cons]
      refine ⟨?_, List.pairwise_cons.2 hs⟩
      intro q hq
      rcases List.mem_cons.1 hq with hq | hq
      · simpa [hq] using h1
      · exact lt_trans h1 (hs.1 q hq)
    · rw [if_neg h1]
      by_cases h2 : k = k'
      · rw [if_pos h2, SortedKeys, List.pairwise_cons]
        exact ⟨fun q hq => h2 ▸ hs.1 q hq, hs.2⟩
      · rw [if_neg h2, SortedKeys, List.pairwise_cons]
        have hk'k : k' < k := lt_of_le_of_ne (not_lt.1 h1) (fun hh => h2 hh.symm)
        refine ⟨?_, ih hs.2⟩
        intro q hq
        have hqk : q.1 ∈ keysOf (mapInsert k v t) := List.mem_map_of_mem Prod.fst hq
        rcases mem_keysOf_mapInsert.1 hqk with hq' | hq'
        · rw [hq']; exact hk'k
        · rcases List.mem_map.1 hq' with ⟨p', hp', hpe⟩
          exact hpe ▸ hs.1 p' hp'

theorem mem_keysOf_iff {m : List (K × V)} {a : K} :
    a ∈ keysOf m ↔ (mapGet? a m).isSome := by
  constructor
  · exact mapGet?_isSome_of_mem
  · intro h
    rcases Option.isSome_iff_exists.1 h with ⟨w, hw⟩
    exact mem_keysOf_of_mapGet? hw

theorem mapRemove_sublist (k : K) (m : List (K × V)) :
    List.Sublist (mapRemove k m) m := by
  induction m with
  | nil => simp [mapRemove]
  | cons p t ih =>
    obtain ⟨k', v'⟩ := p
    rw [mapRemove]
    by_cases hk : k = k'
    · rw [if_pos hk]
      exact List.sublist_cons_self _ _
    · rw [if_neg hk]
      exact List.Sublist.cons₂ _ ih

theorem sortedKeys_mapRemove {k : K} {m : List (K × V)} (hs : SortedKeys m) :
    SortedKeys (mapRemove k m) :=
  hs.sublist (mapRemove_sublist k m)

theorem nodup_keysOf {m : List (K × V)} (hs : SortedKeys m) : (keysOf m).Nodup := by
  have h : List.Pairwise (· < ·) (m.map Prod.fst) := List.pairwise_map.2 hs
  exact h.imp (fun hab => ne_of_lt hab)

theorem nodup_keysOf_mapRemove {m : List (K × V)} (hn : (keysOf m).Nodup) (k : K) :
    (keysOf (mapRemove k m)).Nodup :=
  hn.sublist ((mapRemove_sublist k m).map Prod.fst)

theorem mapGet?_mapRemove {m : List (K × V)} (hn : (keysOf m).Nodup) (a k : K) :
    mapGet? a (mapRemove k m) = if a = k then none else mapGet? a m := by
  induction m with
  | nil => by_cases hak : a = k <;> simp [mapRemove, mapGet?, hak]
  | cons p t ih =>
    obtain ⟨k', v'⟩ := p
    have hn' : (keysOf t).Nodup := (List.nodup_cons.1 (by simpa [keysOf] using hn)).2
    have hk'not : k' ∉ keysOf t := (List.nodup_cons.1 (by simpa [keysOf] using hn)).1
    by_cases hk : k = k'
    · subst hk
      by_cases hak : a = k
      · subst hak
        simp only [mapRemove, if_pos rfl, if_pos rfl]
        exact mapGet?_eq_none_of_not_mem hk'not
      · simp [mapRemove, mapGet?, hak]
    · by_cases hak' : a = k'
      · have hnak : ¬ a = k := fun hh => hk ((hh.symm.trans hak'))
        have hk'k : ¬ k' = k := fun hh => hk hh.symm
        simp [mapRemove, hk, mapGet?, hak', hnak, hk'k]
      · simp [mapRemove, hk, mapGet?, hak', ih hn']

theorem mem_keysOf_mapRemove {m : List (K × V)} (hn : (keysOf m).Nodup) {a k : K} :
    a ∈ keysOf (mapRemove k m) ↔ a ∈ keysOf m ∧ ¬ a = k := by
  rw [mem_keysOf_iff, mapGet?_mapRemove hn, mem_keysOf_iff]
  by_cases hak : a = k <;> simp [hak]

theorem removeAll_cons (x : K) (ks : List K) (m : List (K × V)) :
    removeAll (x :: ks) m = removeAll ks (mapRemove x m) := rfl

theorem mapGet?_removeAll {ks : List K} {m : List (K × V)} (hn : (keysOf m).Nodup)
    (a : K) : mapGet? a (removeAll ks m) = if a ∈ ks then none else mapGet? a m := by
  induction ks generalizing m with
  | nil => simp [removeAll]
  | cons x ks ih =>
    rw [removeAll_cons, ih (nodup_keysOf_mapRemove hn x), mapGet?_mapRemove hn]
    by_cases h1 : a ∈ ks
    · by_cases h2 : a = x <;> simp [h1, h2]
    · by_cases h2 : a = x <;> simp [h1, h2]

theorem mem_keysOf_removeAll {ks : List K} {m : List (K × V)} (hn : (keysOf m).Nodup)
    {a : K} : a ∈ keysOf (removeAll ks m) ↔ a ∈ keysOf m ∧ a ∉ ks := by
  rw [mem_keysOf_iff, mapGet?_removeAll hn, mem_keysOf_iff]
  by_cases hak : a ∈ ks <;> simp [hak]

theorem sortedKeys_removeAll {ks : List K} {m : List (K × V)} (hs : SortedKeys m) :
    SortedKeys (removeAll ks m) := by
  induction ks generalizing m with
  | nil => simpa [removeAll] using hs
  | cons x ks ih =>
    rw [removeAll_cons]
    exact ih (sortedKeys_mapRemove hs)

/-! ### Evaluation lemmas for `index` -/

theorem previous_value_empty {st : IntervalMap K V} (h : st.value_map = []) (k : K) :
    previous_value st k = st.default_value := by
  simp [previous_value, previous_value?, previous_key, h, keysOf]

theorem index_empty {st : IntervalMap K V} (h : st.value_map = []) (k : K) :
    index st k = st.default_value := by
  simp [index, index?, min_key, h, keysOf]

theorem index_of_get {st : IntervalMap K V} {k : K} {v : V}
    (h : mapGet? k st.value_map = some v) : index st k = v := by
  have hmem : k ∈ keysOf st.value_map := mem_keysOf_of_mapGet? h
  have hissome : (keysOf st.value_map).min?.isSome := List.isSome_min?_of_mem hmem
  rcases Option.isSome_iff_exists.1 hissome with ⟨mk, hmk⟩
  have hle : mk ≤ k := (min?_spec hmk).2 k hmem
  simp only [index, index?, min_key, hmk, if_neg (not_lt.2 hle), h]
  rfl

theorem index_of_forall_lt {st : IntervalMap K V} {k : K}
    (h : ∀ q ∈ keysOf st.value_map, k < q) : index st k = st.default_value := by
  rcases hmk : (keysOf st.value_map).min? with _ | mk
  · simp [index, index?, min_key, hmk]
  · have hmem := (min?_spec hmk).1
    have hlt : k < mk := h mk hmem
    simp [index, index?, min_key, hmk, hlt]

theorem index_eq_of {st : IntervalMap K V} {b k : K} {v : V}
    (hb : mapGet? b st.value_map = some v) (hbk : b ≤ k)
    (hmax : ∀ q ∈ keysOf st.value_map, q ≤ k → q ≤ b) :
    index st k = v := by
  rcases hget : mapGet? k st.value_map with _ | w
  · have hknotmem : k ∉ keysOf st.value_map := not_mem_keysOf_of_mapGet?_eq_none hget
    have hbmem : b ∈ keysOf st.value_map := mem_keysOf_of_mapGet? hb
    have hbne : b ≠ k := fun hh => hknotmem (hh ▸ hbmem)
    have hblt : b < k := lt_of_le_of_ne hbk hbne
    have hissome : (keysOf st.value_map).min?.isSome := List.isSome_min?_of_mem hbmem
    rcases Option.isSome_iff_exists.1 hissome with ⟨mk, hmk⟩
    have hmkle : mk ≤ k := le_trans ((min?_spec hmk).2 b hbmem) hbk
    have hprev : previous_key st k = some b := by
      apply max?_eq_some_of
      · exact List.mem_filter.2 ⟨hbmem, by simp [hblt]⟩
      · intro q hq
        rcases List.mem_filter.1 hq with ⟨hq1, hq2⟩
        have hqk : q < k := by simpa using hq2
        exact hmax q hq1 (le_of_lt hqk)
    simp only [index, index?, min_key, hmk, if_neg (not_lt.2 hmkle), hget,
      previous_value?, hprev, hb]
    rfl
  · have hkmem : k ∈ keysOf st.value_map := mem_keysOf_of_mapGet? hget
    have hkb : k = b := le_antisymm (hmax k hkmem le_rfl) hbk
    exact index_of_get (by rw [hkb]; exact hb)

/-! ### Branch lemmas for `assign` -/

theorem assign_of_ret_false {st : IntervalMap K V} {kb ke : K} {v : V}
    (h : (assign st kb ke v).1 = false) : assign st kb ke v = (false, st) := by
  by_cases h1 : ke ≤ kb
  · simp [assign, h1]
  · by_cases h2 : st.value_map = [] ∧ ¬ v = st.default_value
    · simp [assign, h1, h2] at h
    · by_cases h3 : v = previous_value st kb ∨ v = index st ke
      · simp [assign, h1, h2, h3]
      · simp [assign, h1, h2, h3] at h

theorem assign_ret_false_iff (st : IntervalMap K V) (kb ke : K) (v : V) :
    (assign st kb ke v).1 = false ↔
      ke ≤ kb ∨ v = previous_value st kb ∨ v = index st ke := by
  by_cases h1 : ke ≤ kb
  · simp [assign, h1]
  · by_cases h2 : st.value_map = [] ∧ ¬ v = st.default_value
    · have hpv := previous_value_empty h2.1 kb
      have hiv := index_empty h2.1 ke
      simp [assign, h1, h2, hpv, hiv, h2.2]
    · by_cases h3 : v = previous_value st kb ∨ v = index st ke
      · simp [assign, h1, h2, h3]
      · simp [assign, h1, h2, h3]

theorem assign_default (st : IntervalMap K V) (kb ke : K) (v : V) :
    (assign st kb ke v).2.default_value = st.default_value := by
  by_cases h1 : ke ≤ kb
  · simp [assign, h1]
  · by_cases h2 : st.value_map = [] ∧ ¬ v = st.default_value
    · simp [assign, h1, h2]
    · by_cases h3 : v = previous_value st kb ∨ v = index st ke
      · simp [assign, h1, h2, h3]
      · simp only [assign, if_neg h1, if_neg h2, if_neg h3]

theorem mem_keysOf_assignScan {st : IntervalMap K V} {ke : K} {ov : List K}
    (hs : SortedKeys st.value_map) {q : K}
    (h : q ∈ keysOf (assignScan st ke ov).2) :
    q = ke ∨ (q ∈ keysOf st.value_map ∧ q ∉ ov) := by
  rw [assignScan] at h
  rcases hlast : ov.getLast? with _ | lo <;> rw [hlast] at h
  · simp only at h
    refine Or.inr ⟨h, ?_⟩
    have : ov = [] := by simpa using hlast
    simp [this]
  · simp only at h
    by_cases hc : containsKey ke st.value_map = false ∧ key_exceeds st lo ke = true
    · rw [if_pos hc] at h
      have hn : (keysOf (mapInsert ke (index st lo) st.value_map)).Nodup :=
        nodup_keysOf (sortedKeys_mapInsert hs)
      rcases (mem_keysOf_removeAll hn).1 h with ⟨hmem, hnot⟩
      rcases mem_keysOf_mapInsert.1 hmem with hq | hq
      · exact Or.inl hq
      · exact Or.inr ⟨hq, hnot⟩
    · rw [if_neg hc] at h
      rcases (mem_keysOf_removeAll (nodup_keysOf hs)).1 h with ⟨hmem, hnot⟩
      exact Or.inr ⟨hmem, hnot⟩

theorem sortedKeys_assignScan {st : IntervalMap K V} {ke : K} {ov : List K}
    (hs : SortedKeys st.value_map) : SortedKeys (assignScan st ke ov).2 := by
  rw [assignScan]
  rcases hlast : ov.getLast? with _ | lo
  · simpa using hs
  · simp only
    by_cases hc : containsKey ke st.value_map = false ∧ key_exceeds st lo ke = true
    · rw [if_pos hc]
      exact sortedKeys_removeAll (sortedKeys_mapInsert hs)
    · rw [if_neg hc]
      exact sortedKeys_removeAll hs

theorem assign_true_run {st : IntervalMap K V} {kb ke : K} {v : V}
    (hs : SortedKeys st.value_map) (h : (assign st kb ke v).1 = true) :
    kb < ke ∧
    mapGet? kb (assign st kb ke v).2.value_map = some v ∧
    (∀ q ∈ keysOf (assign st kb ke v).2.value_map, kb < q → ke ≤ q) ∧
    SortedKeys (assign st kb ke v).2.value_map := by
  by_cases h1 : ke ≤ kb
  · simp [assign, h1] at h
  have hlt : kb < ke := not_le.1 h1
  have hne : ¬ kb = ke := ne_of_lt hlt
  by_cases h2 : st.value_map = [] ∧ ¬ v = st.default_value
  · have hres : (assign st kb ke v).2.value_map
        = mapInsert ke st.default_value (mapInsert kb v st.value_map) := by
      simp [assign, h1, h2]
    rw [hres]
    refine ⟨hlt, ?_, ?_, ?_⟩
    · rw [mapGet?_mapInsert, if_neg hne, mapGet?_mapInsert, if_pos rfl]
    · intro q hq hkbq
      rcases mem_keysOf_mapInsert.1 hq with hq' | hq'
      · exact hq' ▸ le_rfl
      · rcases mem_keysOf_mapInsert.1 hq' with hq'' | hq''
        · exact absurd hq'' (ne_of_gt hkbq)
        · rw [h2.1] at hq''
          simp [keysOf] at hq''
    · exact sortedKeys_mapInsert (sortedKeys_mapInsert hs)
  by_cases h3 : v = previous_value st kb ∨ v = index st ke
  · simp [assign, h1, h2, h3] at h
  · have hres : (assign st kb ke v).2.value_map =
        (if (assignScan st ke (keys_in_range st kb ke)).1 = false ∧
            containsKey ke
              (mapInsert kb v (assignScan st ke (keys_in_range st kb ke)).2) = false
         then mapInsert ke st.default_value
                (mapInsert kb v (assignScan st ke (keys_in_range st kb ke)).2)
         else mapInsert kb v (assignScan st ke (keys_in_range st kb ke)).2) := by
      simp [assign, h1, h2, h3]
    have hP2keys : ∀ q ∈ keysOf (assignScan st ke (keys_in_range st kb ke)).2,
        kb < q → ke ≤ q := by
      intro q hq hkbq
      rcases mem_keysOf_assignScan hs hq with hq' | ⟨hmem, hnot⟩
      · exact hq' ▸ le_rfl
      · by_contra hke
        apply hnot
        rw [keys_in_range]
        refine List.mem_filter.2 ⟨hmem, ?_⟩
        simp [le_of_lt hkbq, not_le.1 hke]
    have hm2keys :
        ∀ q ∈ keysOf (mapInsert kb v (assignScan st ke (keys_in_range st kb ke)).2),
        kb < q → ke ≤ q := by
      intro q hq hkbq
      rcases mem_keysOf_mapInsert.1 hq with hq' | hq'
      · exact absurd hq' (ne_of_gt hkbq)
      · exact hP2keys q hq' hkbq
    have hm2get :
        mapGet? kb (mapInsert kb v (assignScan st ke (keys_in_range st kb ke)).2)
          = some v := by
      rw [mapGet?_mapInsert, if_pos rfl]
    have hm2sorted :
        SortedKeys (mapInsert kb v (assignScan st ke (keys_in_range st kb ke)).2) :=
      sortedKeys_mapInsert (sortedKeys_assignScan hs)
    rw [hres]
    by_cases hcond : (assignScan st ke (keys_in_range st kb ke)).1 = false ∧
        containsKey ke
          (mapInsert kb v (assignScan st ke (keys_in_range st kb ke)).2) = false
    · rw [if_pos hcond]
      refine ⟨hlt, ?_, ?_, sortedKeys_mapInsert hm2sorted⟩
      · rw [mapGet?_mapInsert, if_neg hne, hm2get]
      · intro q hq hkbq
        rcases mem_keysOf_mapInsert.1 hq with hq' | hq'
        · exact hq' ▸ le_rfl
        · exact hm2keys q hq' hkbq
    · rw [if_neg hcond]
      exact ⟨hlt, hm2get, hm2keys, hm2sorted⟩

theorem assign_sorted {st : IntervalMap K V} (kb ke : K) (v : V)
    (hs : SortedKeys st.value_map) : SortedKeys (assign st kb ke v).2.value_map := by
  cases hb : (assign st kb ke v).1 with
  | false => rw [assign_of_ret_false hb]; exact hs
  | true => exact (assign_true_run hs hb).2.2.2

/-! ### The trailing-breakpoint invariant -/

/-- In states produced by the code, the greatest stored breakpoint always
carries the default value. -/
def LastDefault (st : IntervalMap K V) : Prop :=
  ∀ mk, max_key st = some mk → mapGet? mk st.value_map = some st.default_value

theorem mem_keys_in_range {st : IntervalMap K V} {kb ke q : K} :
    q ∈ keys_in_range st kb ke ↔ q ∈ keysOf st.value_map ∧ kb ≤ q ∧ q < ke := by
  rw [keys_in_range]
  simp [List.mem_filter]

theorem pairwise_keys_in_range {st : IntervalMap K V} (hs : SortedKeys st.value_map)
    (kb ke : K) : List.Pairwise (· < ·) (keys_in_range st kb ke) := by
  rw [keys_in_range]
  exact (List.pairwise_map.2 hs).filter _

theorem containsKey_eq_false_of_not_mem {m : List (K × V)} {k : K}
    (h : k ∉ keysOf m) : containsKey k m = false := by
  rw [containsKey, mapGet?_eq_none_of_not_mem h]
  rfl

theorem containsKey_eq_true_of_mem {m : List (K × V)} {k : K}
    (h : k ∈ keysOf m) : containsKey k m = true := by
  rw [containsKey]
  exact mapGet?_isSome_of_mem h

theorem mapGet?_assignScan_of {st : IntervalMap K V} {ke : K} {ov : List K}
    (hs : SortedKeys st.value_map) {a : K} (ha1 : a ∉ ov)
    (ha2 : a = ke → containsKey ke st.value_map = true) :
    mapGet? a (assignScan st ke ov).2 = mapGet? a st.value_map := by
  rw [assignScan]
  rcases hlast : ov.getLast? with _ | lo
  · simp only
  · simp only
    by_cases hc : containsKey ke st.value_map = false ∧ key_exceeds st lo ke = true
    · have hake : ¬ a = ke := by
        intro hh
        have ht := ha2 hh
        rw [hc.1] at ht
        exact Bool.false_ne_true ht
      rw [if_pos hc,
        mapGet?_removeAll (nodup_keysOf (sortedKeys_mapInsert hs)), if_neg ha1,
        mapGet?_mapInsert, if_neg hake]
    · rw [if_neg hc, mapGet?_removeAll (nodup_keysOf hs), if_neg ha1]

theorem lastDefault_main {st : IntervalMap K V} {kb ke : K} {v : V} {m' : List (K × V)}
    (hs : SortedKeys st.value_map) (hl : LastDefault st)
    (h1 : ¬ ke ≤ kb) (hne : st.value_map ≠ [])
    (hm' : m' =
        (if (assignScan st ke (keys_in_range st kb ke)).1 = false ∧
            containsKey ke
              (mapInsert kb v (assignScan st ke (keys_in_range st kb ke)).2) = false
         then mapInsert ke st.default_value
                (mapInsert kb v (assignScan st ke (keys_in_range st kb ke)).2)
         else mapInsert kb v (assignScan st ke (keys_in_range st kb ke)).2)) :
    ∀ mk, (keysOf m').max? = some mk → mapGet? mk m' = some st.default_value := by
  have hlt : kb < ke := not_le.1 h1
  have hkeys_ne : keysOf st.value_map ≠ [] := by
    intro hh
    exact hne (by simpa [keysOf] using hh)
  obtain ⟨M, hM⟩ : ∃ M, (keysOf st.value_map).max? = some M := by
    rcases hmm : (keysOf st.value_map).max? with _ | M
    · exact absurd (List.max?_eq_none_iff.1 hmm) hkeys_ne
    · exact ⟨M, rfl⟩
  have hMmem : M ∈ keysOf st.value_map := (max?_spec hM).1
  have hMmax : ∀ b ∈ keysOf st.value_map, b ≤ M := (max?_spec hM).2
  have hMget : mapGet? M st.value_map = some st.default_value :=
    hl M (by rw [max_key]; exact hM)
  by_cases hkeM : ke ≤ M
  · -- the old maximum key M survives as the maximum
    have hkbM : kb < M := lt_of_lt_of_le hlt hkeM
    have hMne_kb : ¬ M = kb := ne_of_gt hkbM
    have hMnotov : M ∉ keys_in_range st kb ke := by
      intro hh
      exact absurd (mem_keys_in_range.1 hh).2.2 (not_lt.2 hkeM)
    have hMa2 : M = ke → containsKey ke st.value_map = true := by
      intro hh
      exact containsKey_eq_true_of_mem (hh ▸ hMmem)
    have hgetP2 : mapGet? M (assignScan st ke (keys_in_range st kb ke)).2
        = some st.default_value := by
      rw [mapGet?_assignScan_of hs hMnotov hMa2, hMget]
    have hgetm2 :
        mapGet? M (mapInsert kb v (assignScan st ke (keys_in_range st kb ke)).2)
          = some st.default_value := by
      rw [mapGet?_mapInsert, if_neg hMne_kb, hgetP2]
    have hgetm' : mapGet? M m' = some st.default_value := by
      rw [hm']
      split
      · rw [mapGet?_mapInsert]
        by_cases hMke : M = ke
        · rw [if_pos hMke]
        · rw [if_neg hMke, hgetm2]
      · exact hgetm2
    have hMmem' : M ∈ keysOf m' := mem_keysOf_of_mapGet? hgetm'
    have hbound : ∀ b ∈ keysOf m', b ≤ M := by
      intro b hb
      rw [hm'] at hb
      have hb' : b = ke ∨
          b ∈ keysOf (mapInsert kb v (assignScan st ke (keys_in_range st kb ke)).2) := by
        revert hb
        split
        · intro hb
          rcases mem_keysOf_mapInsert.1 hb with hh | hh
          · exact Or.inl hh
          · exact Or.inr hh
        · intro hb
          exact Or.inr hb
      rcases hb' with hh | hh
      · exact hh ▸ hkeM
      · rcases mem_keysOf_mapInsert.1 hh with hh' | hh'
        · exact hh' ▸ le_of_lt hkbM
        · rcases mem_keysOf_assignScan hs hh' with hh'' | ⟨hh'', _⟩
          · exact hh'' ▸ hkeM
          · exact hMmax b hh''
    intro mk hmk
    rw [max?_eq_some_of hMmem' hbound] at hmk
    injection hmk with hmk
    subst hmk
    exact hgetm'
  · -- the assigned range reaches past the old maximum: key ke takes over
    have hMke : M < ke := not_le.1 hkeM
    have hkenotmem : ke ∉ keysOf st.value_map := by
      intro hh
      exact absurd (hMmax ke hh) (not_le.2 hMke)
    have hkecont : containsKey ke st.value_map = false :=
      containsKey_eq_false_of_not_mem hkenotmem
    have hkenotov : ke ∉ keys_in_range st kb ke := by
      intro hh
      exact absurd (mem_keys_in_range.1 hh).2.2 (lt_irrefl ke)
    rcases hlast : (keys_in_range st kb ke).getLast? with _ | lo
    · -- no overlapped key: the code writes (ke, default) at the end
      have hscan : assignScan st ke (keys_in_range st kb ke) = (false, st.value_map) := by
        rw [assignScan, hlast]
      have hkem2 : containsKey ke
          (mapInsert kb v (assignScan st ke (keys_in_range st kb ke)).2) = false := by
        rw [hscan]
        apply containsKey_eq_false_of_not_mem
        intro hh
        rcases mem_keysOf_mapInsert.1 hh with hh' | hh'
        · exact absurd hh' (ne_of_gt hlt)
        · exact hkenotmem hh'
      have hcond : ((assignScan st ke (keys_in_range st kb ke)).1 = false ∧
          containsKey ke
            (mapInsert kb v (assignScan st ke (keys_in_range st kb ke)).2) = false) := by
        constructor
        · rw [hscan]
        · exact hkem2
      have hm'2 : m' = mapInsert ke st.default_value (mapInsert kb v st.value_map) := by
        rw [hm', if_pos hcond, hscan]
      have hgetm' : mapGet? ke m' = some st.default_value := by
        rw [hm'2, mapGet?_mapInsert, if_pos rfl]
      have hkemem' : ke ∈ keysOf m' := mem_keysOf_of_mapGet? hgetm'
      have hbound : ∀ b ∈ keysOf m', b ≤ ke := by
        intro b hb
        rw [hm'2] at hb
        rcases mem_keysOf_mapInsert.1 hb with hh | hh
        · exact hh ▸ le_rfl
        · rcases mem_keysOf_mapInsert.1 hh with hh' | hh'
          · exact hh' ▸ le_of_lt hlt
          · exact le_of_lt (lt_of_le_of_lt (hMmax b hh') hMke)
      intro mk hmk
      rw [max?_eq_some_of hkemem' hbound] at hmk
      injection hmk with hmk
      subst hmk
      exact hgetm'
    · -- the greatest overlapped key is M itself; its run is re-anchored at ke
      have hlomem : lo ∈ keys_in_range st kb ke := mem_of_getLast?_eq hlast
      have hlo' := mem_keys_in_range.1 hlomem
      have hloM : lo = M := by
        have hMov : M ∈ keys_in_range st kb ke :=
          mem_keys_in_range.2 ⟨hMmem, le_trans hlo'.2.1 (hMmax lo hlo'.1), hMke⟩
        have hle1 : M ≤ lo :=
          le_getLast?_of_sorted (pairwise_keys_in_range hs kb ke) hlast M hMov
        exact le_antisymm (hMmax lo hlo'.1) hle1
      have hexceeds : key_exceeds st lo ke = true := by
        rw [key_exceeds, next_key]
        have hfilter : (keysOf st.value_map).filter (fun k => decide (lo < k)) = [] := by
          apply List.filter_eq_nil_iff.2
          intro b hb
          simp only [decide_eq_true_eq, not_lt]
          rw [hloM]
          exact hMmax b hb
        rw [hfilter]
        simp
      have hc : containsKey ke st.value_map = false ∧ key_exceeds st lo ke = true :=
        ⟨hkecont, hexceeds⟩
      have hscan : assignScan st ke (keys_in_range st kb ke)
          = (true, removeAll (keys_in_range st kb ke)
              (mapInsert ke (index st lo) st.value_map)) := by
        rw [assignScan, hlast]
        dsimp only
        rw [if_pos hc]
      have hidx : index st lo = st.default_value := by
        rw [hloM]
        exact index_of_get hMget
      have hcondfalse : ¬ ((assignScan st ke (keys_in_range st kb ke)).1 = false ∧
          containsKey ke
            (mapInsert kb v (assignScan st ke (keys_in_range st kb ke)).2) = false) := by
        intro hh
        rw [hscan] at hh
        simp at hh
      have hm'2 : m' = mapInsert kb v (removeAll (keys_in_range st kb ke)
          (mapInsert ke st.default_value st.value_map)) := by
        rw [hm', if_neg hcondfalse, hscan, hidx]
      have hnodup_ins : (keysOf (mapInsert ke st.default_value st.value_map)).Nodup :=
        nodup_keysOf (sortedKeys_mapInsert hs)
      have hgetm' : mapGet? ke m' = some st.default_value := by
        rw [hm'2, mapGet?_mapInsert, if_neg (ne_of_gt hlt),
          mapGet?_removeAll hnodup_ins, if_neg hkenotov, mapGet?_mapInsert, if_pos rfl]
      have hkemem' : ke ∈ keysOf m' := mem_keysOf_of_mapGet? hgetm'
      have hbound : ∀ b ∈ keysOf m', b ≤ ke := by
        intro b hb
        rw [hm'2] at hb
        rcases mem_keysOf_mapInsert.1 hb with hh | hh
        · exact hh ▸ le_of_lt hlt
        · rcases (mem_keysOf_removeAll hnodup_ins).1 hh with ⟨hh', _⟩
          rcases mem_keysOf_mapInsert.1 hh' with hh'' | hh''
          · exact hh'' ▸ le_rfl
          · exact le_of_lt (lt_of_le_of_lt (hMmax b hh'') hMke)
      intro mk hmk
      rw [max?_eq_some_of hkemem' hbound] at hmk
      injection hmk with hmk
      subst hmk
      exact hgetm'

theorem assign_lastDefault {st : IntervalMap K V} (kb ke : K) (v : V)
    (hs : SortedKeys st.value_map) (hl : LastDefault st) :
    LastDefault (assign st kb ke v).2 := by
  by_cases h1 : ke ≤ kb
  · have hres : assign st kb ke v = (false, st) := by simp [assign, h1]
    rw [hres]
    exact hl
  by_cases h2 : st.value_map = [] ∧ ¬ v = st.default_value
  · have hres : assign st kb ke v = (true, ⟨st.default_value,
        mapInsert ke st.default_value (mapInsert kb v st.value_map)⟩) := by
      simp [assign, h1, h2]
    rw [hres]
    have hlt : kb < ke := not_le.1 h1
    have hgetke :
        mapGet? ke (mapInsert ke st.default_value (mapInsert kb v st.value_map))
          = some st.default_value := by
      rw [mapGet?_mapInsert, if_pos rfl]
    have hkemem :
        ke ∈ keysOf (mapInsert ke st.default_value (mapInsert kb v st.value_map)) :=
      mem_keysOf_of_mapGet? hgetke
    have hbound :
        ∀ b ∈ keysOf (mapInsert ke st.default_value (mapInsert kb v st.value_map)),
          b ≤ ke := by
      intro b hb
      rcases mem_keysOf_mapInsert.1 hb with hh | hh
      · exact hh ▸ le_rfl
      · rcases mem_keysOf_mapInsert.1 hh with hh' | hh'
        · exact hh' ▸ le_of_lt hlt
        · rw [h2.1] at hh'
          simp [keysOf] at hh'
    intro mk hmk
    rw [max_key] at hmk
    rw [max?_eq_some_of hkemem hbound] at hmk
    injection hmk with hmk
    subst hmk
    exact hgetke
  by_cases h3 : v = previous_value st kb ∨ v = index st ke
  · have hres : assign st kb ke v = (false, st) := by simp [assign, h1, h2, h3]
    rw [hres]
    exact hl
  · have hne : st.value_map ≠ [] := by
      intro hh
      have hvd : v = st.default_value := by
        by_contra hvd
        exact h2 ⟨hh, hvd⟩
      exact h3 (Or.inr (by rw [index_empty hh]; exact hvd))
    have hres : (assign st kb ke v).2.value_map =
        (if (assignScan st ke (keys_in_range st kb ke)).1 = false ∧
            containsKey ke
              (mapInsert kb v (assignScan st ke (keys_in_range st kb ke)).2) = false
         then mapInsert ke st.default_value
                (mapInsert kb v (assignScan st ke (keys_in_range st kb ke)).2)
         else mapInsert kb v (assignScan st ke (keys_in_range st kb ke)).2) := by
      simp [assign, h1, h2, h3]
    intro mk hmk
    rw [max_key, hres] at hmk
    rw [hres, assign_default]
    exact lastDefault_main hs hl h1 hne rfl mk hmk

theorem reachable_inv {st : IntervalMap K V} (h : Reachable st) :
    SortedKeys st.value_map ∧ LastDefault st := by
  induction h with
  | base d =>
    constructor
    · exact List.Pairwise.nil
    · intro mk hmk
      simp [max_key, keysOf, IntervalMap.new] at hmk
  | step st kb ke v hr ih =>
    exact ⟨assign_sorted kb ke v ih.1, assign_lastDefault kb ke v ih.1 ih.2⟩

theorem previous_value?_isSome (st : IntervalMap K V) (k : K) :
    (previous_value? st k).isSome := by
  rw [previous_value?]
  rcases hp : previous_key st k with _ | p
  · rfl
  · have hp' : ((keysOf st.value_map).filter (fun x => decide (x < k))).max?
        = some p := by
      rw [previous_key] at hp
      exact hp
    have hmem : p ∈ keysOf st.value_map := (List.mem_filter.1 (max?_spec hp').1).1
    exact mapGet?_isSome_of_mem hmem

theorem index?_eq_some (st : IntervalMap K V) (k : K) :
    index? st k = some (index st k) := by
  have hsome : (index? st k).isSome := by
    rw [index?]
    rcases hm : min_key st with _ | mk
    · rfl
    · dsimp only
      by_cases hk : k < mk
      · rw [if_pos hk]
        rfl
      · rw [if_neg hk]
        rcases hg : mapGet? k st.value_map with _ | w
        · exact previous_value?_isSome st k
        · rfl
  rcases hx : index? st k with _ | w
  · rw [hx] at hsome
    simp at hsome
  · rw [index, hx]
    rfl

/-! ### The claims -/

/-- Claim C1 (code bug): the canonical-form invariant FAILS on the code.
Starting from `new('a')`, `assign(0,10,'b')` and `assign(2,5,'c')` both
return true, yet the store ends as `[(0,'b'),(2,'c'),(5,'a'),(10,'a')]`:
the stored breakpoint `(10,'a')` carries exactly the value in effect
immediately before its key (its `previous_value` is also `'a'`), so the
no-self-adjacency half of the invariant is violated, and four breakpoints
are stored where three represent the same visible sequence. -/
theorem canonical_violation :
    (assign (IntervalMap.new (K := Int) 'a') 0 10 'b').1 = true ∧
    (assign (assign (IntervalMap.new (K := Int) 'a') 0 10 'b').2 2 5 'c').1 = true ∧
    (assign (assign (IntervalMap.new (K := Int) 'a') 0 10 'b').2 2 5 'c').2.value_map
      = [(0,'b'),(2,'c'),(5,'a'),(10,'a')] ∧
    mapGet? 10
      (assign (assign (IntervalMap.new (K := Int) 'a') 0 10 'b').2 2 5 'c').2.value_map
      = some 'a' ∧
    previous_value
      (assign (assign (IntervalMap.new (K := Int) 'a') 0 10 'b').2 2 5 'c').2 10
      = 'a' := by
  decide

/-- Claim C2 (code bug): the frame property FAILS on the code.  After
`new('a')` and `assign(0,10,'b')`, the key 7 reads `'b'`; the call
`assign(2,5,'c')` succeeds (returns true) although key 7 lies outside
`[2,5)`, and afterwards key 7 reads `'a'`: the surviving tail of the run
that extends past `end` is NOT preserved when no stored key falls inside
the assigned range. -/
theorem frame_violation :
    index (assign (IntervalMap.new (K := Int) 'a') 0 10 'b').2 7 = 'b' ∧
    (assign (assign (IntervalMap.new (K := Int) 'a') 0 10 'b').2 2 5 'c').1 = true ∧
    index (assign (assign (IntervalMap.new (K := Int) 'a') 0 10 'b').2 2 5 'c').2 7
      = 'a' := by
  decide

/-- Claim C3: after any true-returning `assign(begin, end, value)` on a
well-formed store, every key `k` with `begin ≤ k < end` looks up to
`value`. -/
theorem assign_sets_range (st : IntervalMap K V) (kb ke : K) (v : V) (k : K)
    (hs : SortedKeys st.value_map) (h : (assign st kb ke v).1 = true)
    (h1 : kb ≤ k) (h2 : k < ke) :
    index (assign st kb ke v).2 k = v := by
  obtain ⟨hlt, hget, hkeys, hsorted⟩ := assign_true_run hs h
  apply index_eq_of hget h1
  intro q hq hqk
  by_contra hqb
  exact absurd (hkeys q hq (not_le.1 hqb)) (not_le.2 (lt_of_le_of_lt hqk h2))

/-- Witness for C3 at a concrete input. -/
theorem assign_sets_range_witness :
    index (assign (IntervalMap.new (K := Int) 'a') 0 10 'b').2 5 = 'b' :=
  assign_sets_range _ 0 10 'b' 5 List.Pairwise.nil (by decide) (by decide) (by decide)

/-- Claim C4: `assign(begin, end, value)` returns false iff
`begin >= end`, or `value` equals the value in effect just before `begin`
(`previous_value`), or `value` equals the value in effect exactly at `end`
(`self[end]`). -/
theorem assign_false_characterization (st : IntervalMap K V) (kb ke : K) (v : V) :
    (assign st kb ke v).1 = false ↔
      ke ≤ kb ∨ v = previous_value st kb ∨ v = index st ke :=
  assign_ret_false_iff st kb ke v

/-- Claim C5: point lookup returns the default when the store is empty or
the key precedes the smallest stored key, the stored value on an exact
breakpoint hit, and otherwise the value of the greatest stored key
strictly below the queried key. -/
theorem index_spec_cases (st : IntervalMap K V) (k : K) :
    (st.value_map = [] → index st k = st.default_value) ∧
    (∀ mk, min_key st = some mk → k < mk → index st k = st.default_value) ∧
    (∀ v, mapGet? k st.value_map = some v → index st k = v) ∧
    (mapGet? k st.value_map = none → ∀ p w, previous_key st k = some p →
      mapGet? p st.value_map = some w → index st k = w) := by
  refine ⟨fun h => index_empty h k, ?_, fun v h => index_of_get h, ?_⟩
  · intro mk hmk hk
    simp only [index, index?, hmk, if_pos hk]
    rfl
  · intro hget p w hp hw
    have hp' : ((keysOf st.value_map).filter (fun x => decide (x < k))).max?
        = some p := by
      rw [previous_key] at hp
      exact hp
    have hpfil := (max?_spec hp').1
    have hpmem : p ∈ keysOf st.value_map := (List.mem_filter.1 hpfil).1
    have hpk : p < k := by simpa using (List.mem_filter.1 hpfil).2
    have hsome : (keysOf st.value_map).min?.isSome := List.isSome_min?_of_mem hpmem
    rcases Option.isSome_iff_exists.1 hsome with ⟨mk, hmk⟩
    have hmkp : mk ≤ p := (min?_spec hmk).2 p hpmem
    have hnk : ¬ k < mk := not_lt.2 (le_of_lt (lt_of_le_of_lt hmkp hpk))
    simp only [index, index?, min_key, hmk, if_neg hnk, hget, previous_value?, hp, hw]
    rfl

/-- Witness for C5: all four lookup cases exercised on concrete stores
(the store of the source's `test_indexing`). -/
theorem index_spec_cases_witness :
    index (⟨3, []⟩ : IntervalMap Int Int) 0 = 3 ∧
    index (⟨3, [(2,5),(4,6),(10,3)]⟩ : IntervalMap Int Int) 1 = 3 ∧
    index (⟨3, [(2,5),(4,6),(10,3)]⟩ : IntervalMap Int Int) 4 = 6 ∧
    index (⟨3, [(2,5),(4,6),(10,3)]⟩ : IntervalMap Int Int) 9 = 6 := by
  refine ⟨(index_spec_cases _ 0).1 rfl, ?_, ?_, ?_⟩
  · exact (index_spec_cases _ 1).2.1 2 (by decide) (by decide)
  · exact (index_spec_cases _ 4).2.2.1 6 (by decide)
  · exact (index_spec_cases _ 9).2.2.2 (by decide) 4 6 (by decide) (by decide)

/-- Claim C6: a false-returning `assign` leaves the container unchanged
(same default value, identical store). -/
theorem assign_false_no_mutation {st : IntervalMap K V} {kb ke : K} {v : V}
    (h : (assign st kb ke v).1 = false) : (assign st kb ke v).2 = st := by
  rw [assign_of_ret_false h]

/-- Witness for C6 at a concrete input (`assign(1,1,'b')` on a fresh map). -/
theorem assign_false_no_mutation_witness :
    (assign (IntervalMap.new (K := Int) 'a') 1 1 'b').2 = IntervalMap.new 'a' :=
  assign_false_no_mutation (by decide)

/-- Claim C7: assigning a range to the value already in effect throughout
that range (matching at both `begin` and `end`) returns false and leaves
the stored breakpoint count unchanged. -/
theorem redundant_assign_noop (st : IntervalMap K V) (kb ke : K) (v : V)
    (hall : ∀ k, kb ≤ k → k < ke → index st k = v)
    (hb : index st kb = v) (he : index st ke = v) :
    (assign st kb ke v).1 = false ∧
    (assign st kb ke v).2.value_map.length = st.value_map.length := by
  have hfalse : (assign st kb ke v).1 = false :=
    (assign_ret_false_iff st kb ke v).2 (Or.inr (Or.inr he.symm))
  refine ⟨hfalse, ?_⟩
  rw [assign_of_ret_false hfalse]

/-- Witness for C7 at a concrete input (`assign(0,1,'a')` on a fresh
default-`'a'` map, as in the source's `test_canonical`). -/
theorem redundant_assign_noop_witness :
    (assign (IntervalMap.new (K := Int) 'a') 0 1 'a').1 = false ∧
    (assign (IntervalMap.new (K := Int) 'a') 0 1 'a').2.value_map.length
      = (IntervalMap.new (K := Int) 'a').value_map.length :=
  redundant_assign_noop _ 0 1 'a' (fun _ _ _ => rfl) rfl rfl

/-- Claim C8: after `new('a')`, `assign(0,10,'b')`, `assign(0,7,'c')`
(both true), lookups give `'c'` on `[0,7)`, `'b'` on `[7,10)`, `'a'` from
10 on, and the tail run `'b'` is re-anchored by a stored breakpoint at 7. -/
theorem truncation_scenario :
    (assign (IntervalMap.new (K := Int) 'a') 0 10 'b').1 = true ∧
    (assign (assign (IntervalMap.new (K := Int) 'a') 0 10 'b').2 0 7 'c').1 = true ∧
    mapGet? 7
      (assign (assign (IntervalMap.new (K := Int) 'a') 0 10 'b').2 0 7 'c').2.value_map
      = some 'b' ∧
    ∀ k : Int,
      (0 ≤ k → k < 7 →
        index (assign (assign (IntervalMap.new (K := Int) 'a') 0 10 'b').2 0 7 'c').2 k
          = 'c') ∧
      (7 ≤ k → k < 10 →
        index (assign (assign (IntervalMap.new (K := Int) 'a') 0 10 'b').2 0 7 'c').2 k
          = 'b') ∧
      (10 ≤ k →
        index (assign (assign (IntervalMap.new (K := Int) 'a') 0 10 'b').2 0 7 'c').2 k
          = 'a') := by
  have hst : (assign (assign (IntervalMap.new (K := Int) 'a') 0 10 'b').2 0 7 'c').2
      = (⟨'a', [(0,'c'),(7,'b'),(10,'a')]⟩ : IntervalMap Int Char) := by decide
  refine ⟨by decide, by decide, by decide, ?_⟩
  intro k
  rw [hst]
  have hb0 : mapGet? (0 : Int)
      (⟨'a', [(0,'c'),(7,'b'),(10,'a')]⟩ : IntervalMap Int Char).value_map
      = some 'c' := by decide
  have hb7 : mapGet? (7 : Int)
      (⟨'a', [(0,'c'),(7,'b'),(10,'a')]⟩ : IntervalMap Int Char).value_map
      = some 'b' := by decide
  have hb10 : mapGet? (10 : Int)
      (⟨'a', [(0,'c'),(7,'b'),(10,'a')]⟩ : IntervalMap Int Char).value_map
      = some 'a' := by decide
  refine ⟨?_, ?_, ?_⟩
  · intro hk1 hk2
    apply index_eq_of hb0 hk1
    intro q hq hqk
    simp [keysOf] at hq
    rcases hq with hq | hq | hq <;> omega
  · intro hk1 hk2
    apply index_eq_of hb7 hk1
    intro q hq hqk
    simp [keysOf] at hq
    rcases hq with hq | hq | hq <;> omega
  · intro hk1
    apply index_eq_of hb10 hk1
    intro q hq hqk
    simp [keysOf] at hq
    rcases hq with hq | hq | hq <;> omega

/-- Witness for C8 at concrete keys 3, 8, 11. -/
theorem truncation_scenario_witness :
    index (assign (assign (IntervalMap.new (K := Int) 'a') 0 10 'b').2 0 7 'c').2 3
      = 'c' ∧
    index (assign (assign (IntervalMap.new (K := Int) 'a') 0 10 'b').2 0 7 'c').2 8
      = 'b' ∧
    index (assign (assign (IntervalMap.new (K := Int) 'a') 0 10 'b').2 0 7 'c').2 11
      = 'a' :=
  ⟨(truncation_scenario.2.2.2 3).1 (by decide) (by decide),
   (truncation_scenario.2.2.2 8).2.1 (by decide) (by decide),
   (truncation_scenario.2.2.2 11).2.2 (by decide)⟩

/-- Claim C9: point lookup is total and never fails: for every container
state and every key, the optional lookup (`none` = the unwrap panic
inside `previous_value`) is `some`, and on an empty container (`new d`)
every key, with no bound on the key type, reads the default value. -/
theorem index_total_never_fails :
    (∀ (st : IntervalMap K V) (k : K), index? st k = some (index st k)) ∧
    (∀ (d : V) (k : K), index (IntervalMap.new (K := K) d) k = d) := by
  constructor
  · exact index?_eq_some
  · intro d k
    exact index_empty rfl k

/-- Claim C10 (implicit): in every state reachable from `new` via
`assign`, the greatest stored breakpoint carries the default value, and
lookup at that key and at every key beyond it returns the default value. -/
theorem reachable_last_default {st : IntervalMap K V} (h : Reachable st) (mk : K)
    (hmk : max_key st = some mk) :
    mapGet? mk st.value_map = some st.default_value ∧
    ∀ k, mk ≤ k → index st k = st.default_value := by
  obtain ⟨hs, hl⟩ := reachable_inv h
  have hget := hl mk hmk
  refine ⟨hget, ?_⟩
  intro k hk
  apply index_eq_of hget hk
  intro q hq hqk
  exact (max?_spec (by rw [max_key] at hmk; exact hmk)).2 q hq

/-- Witness for C10 on the reachable state `assign(new('a'),0,10,'b')`,
whose greatest breakpoint is `(10,'a')`. -/
theorem reachable_last_default_witness :
    mapGet? 10 (assign (IntervalMap.new (K := Int) 'a') 0 10 'b').2.value_map
      = some 'a' ∧
    index (assign (IntervalMap.new (K := Int) 'a') 0 10 'b').2 15 = 'a' := by
  have hr : Reachable ((assign (IntervalMap.new (K := Int) 'a') 0 10 'b').2) :=
    Reachable.step _ _ _ _ (Reachable.base 'a')
  have h := reachable_last_default hr 10 (by decide)
  exact ⟨h.1, h.2 15 (by decide)⟩

end IntervalMapSpec
